import Mathlib

/-!
Verification of the audio playback subsystem of the DoraROSBridge repository.

The definitions below are a shallow embedding of the Rust sources:
* `src/dora-audio-sink/src/main.rs` (`to_s16le_mono` and the packet-queue
  enqueue site in `main`),
* `src/nodes/audio/common-audio-playback/src/lib.rs`
  (`run_audio_playback_thread`: the `resample` closure and the output
  callbacks built by `build_f32` / `build_i16`),
* `src/nodes/audio/gstreamer-audio-receiver/src/main.rs` (the enqueue sites
  in the `new_sample` callback, which follow the same push-then-trim shape).

Modelling conventions: bytes (`u8`) are `ℕ` masked to `% 256` at the parse
sites; `i16`/`i32`/`i64` values are `ℤ` (the Rust operations stay in range at
every point where the model omits a wrap, and the in-range facts are proved
where they matter); `f32` samples are modelled as exact rationals `ℚ`
(IEEE-754 bit patterns are decoded exactly; float arithmetic is idealized as
exact rational arithmetic). Rust's truncating `/` on integers is `Int.tdiv`,
the arithmetic right shift `>> 16` is `Int.fdiv · 65536`, and `as i16` casts
from floats truncate toward zero.
-/

/-! ### Byte-level parsing of little-endian sample formats -/

/-- A `u8` value: the low byte of a natural number. -/
def u8 (b : ℕ) : ℕ := b % 256

/-- Value of `u16::from_le_bytes([b0, b1])` as a natural number. -/
def leWord16 (b0 b1 : ℕ) : ℕ := u8 b0 + 256 * u8 b1

/-- Value of `u32::from_le_bytes([b0, b1, b2, b3])` as a natural number. -/
def leWord32 (b0 b1 b2 b3 : ℕ) : ℕ :=
  u8 b0 + 256 * u8 b1 + 65536 * u8 b2 + 16777216 * u8 b3

/-- Reinterpret a 16-bit word as a signed `i16` value (two's complement). -/
def toSigned16 (n : ℕ) : ℤ := if n < 32768 then (n : ℤ) else (n : ℤ) - 65536

/-- Reinterpret a 32-bit word as a signed `i32` value (two's complement). -/
def toSigned32 (n : ℕ) : ℤ :=
  if n < 2147483648 then (n : ℤ) else (n : ℤ) - 4294967296

/-- Parse via `input.chunks_exact(2)` + `i16::from_le_bytes` — the S16LE sample parse
used by both the audio callbacks and `to_s16le_mono`.  A trailing odd byte is
discarded, exactly as `chunks_exact` does. -/
def parseS16 : List ℕ → List ℤ
  | b0 :: b1 :: rest => toSigned16 (leWord16 b0 b1) :: parseS16 rest
  | _ => []

/-- Parse via `input.chunks_exact(4)` + `i32::from_le_bytes`. -/
def parseS32 : List ℕ → List ℤ
  | b0 :: b1 :: b2 :: b3 :: rest => toSigned32 (leWord32 b0 b1 b2 b3) :: parseS32 rest
  | _ => []

/-- Serialization `i16::to_le_bytes` (two's complement little endian). -/
def i16ToLeBytes (s : ℤ) : List ℕ := [(s % 65536).toNat % 256, (s % 65536).toNat / 256]

/-- Serialization `out.iter().flat_map(|s| s.to_le_bytes()).collect()` — a list of
`i16` values back to bytes. -/
def s16ListToBytes (l : List ℤ) : List ℕ := (l.map i16ToLeBytes).flatten

/-- The mono decode performed inside the output callbacks of
`run_audio_playback_thread`: parse S16LE pairs and normalize by `/ 32768.0`. -/
def decodeBytesToF32 (p : List ℕ) : List ℚ :=
  (parseS16 p).map (fun s : ℤ => (s : ℚ) / 32768)

/-! ### Rust float-to-integer conversion helpers -/

/-- Rust `as`-cast from a float to an integer type: truncation toward zero.
(The call sites below always stay inside the target range, so saturation
never fires and is not modelled.) -/
def ratTrunc (q : ℚ) : ℤ := if 0 ≤ q then ⌊q⌋ else ⌈q⌉

/-- Rust `f32::clamp(lo, hi)` on (finite) rationals. -/
def rclamp (x lo hi : ℚ) : ℚ := min (max x lo) hi

/-- Rust `i32::clamp` / integer clamp. -/
def rclampInt (x lo hi : ℤ) : ℤ := min (max x lo) hi

/-- Conversion `(x.clamp(-1.0, 1.0) * 32767.0) as i16` — the float-to-i16 sample
conversion used by `to_s16le_mono`'s F32LE arm and by `build_i16`'s
emission loop. -/
def i16OfSample (x : ℚ) : ℤ := ratTrunc (rclamp x (-1) 1 * 32767)

/-! ### IEEE-754 binary32 decoding (exact, for the F32LE input path) -/

/-- Sign bit of an f32 word. -/
def f32Sign (w : ℕ) : Bool := w / 2147483648 % 2 = 1

/-- Biased exponent field (8 bits) of an f32 word. -/
def f32Exp (w : ℕ) : ℕ := w / 8388608 % 256

/-- Fraction field (23 bits) of an f32 word. -/
def f32Frac (w : ℕ) : ℕ := w % 8388608

/-- Whether an f32 word denotes a NaN. -/
def f32IsNan (w : ℕ) : Bool := f32Exp w = 255 && f32Frac w ≠ 0

/-- Exact rational value of a finite f32 word; infinities are mapped to
`±2^256`, which behaves identically to `±∞` under the downstream
`clamp(-1.0, 1.0)`.  (NaN words are handled separately via `f32IsNan`.) -/
def f32Val (w : ℕ) : ℚ :=
  let sgn : ℚ := if f32Sign w then -1 else 1
  if f32Exp w = 255 then sgn * 2 ^ 256
  else if f32Exp w = 0 then sgn * (f32Frac w : ℚ) / 2 ^ 149
  else sgn * ((8388608 + f32Frac w : ℕ) : ℚ) * 2 ^ f32Exp w / 2 ^ 150

/-- Decode step `let f = f32::from_le_bytes(chunk); (f.clamp(-1.0, 1.0) * 32767.0) as i16`
with Rust NaN semantics: `clamp` propagates NaN and `as i16` maps NaN to 0. -/
def f32ChunkToS16 (b0 b1 b2 b3 : ℕ) : ℤ :=
  let w := leWord32 b0 b1 b2 b3
  if f32IsNan w then 0 else i16OfSample (f32Val w)

/-! ### `to_s16le_mono` (src/dora-audio-sink/src/main.rs) -/

/-- The mono F32LE arm: `for chunk in input.chunks_exact(4)`. -/
def f32MonoS16 : List ℕ → List ℤ
  | b0 :: b1 :: b2 :: b3 :: rest => f32ChunkToS16 b0 b1 b2 b3 :: f32MonoS16 rest
  | _ => []

/-- The mono S32LE arm: `out.push((s32 >> 16) as i16)` for each 4-byte chunk. -/
def s32MonoS16 (l : List ℕ) : List ℤ := (parseS32 l).map (fun s => Int.fdiv s 65536)

/-- Split a list into maximal complete chunks of `k` elements, dropping the
incomplete tail.  Used to state the per-frame downmix theorems. -/
def chunksExact (k : ℕ) (l : List α) : List (List α) :=
  if _h : k ≤ l.length ∧ 0 < k then
    l.take k :: chunksExact k (l.drop k)
  else []
termination_by l.length
decreasing_by simp only [List.length_drop]; omega

/-- The multichannel S16LE downmix loop of `to_s16le_mono`: while a full
`channels * 2`-byte frame remains, average the frame's `i16` samples in `i32`,
clamp to the `i16` range, and advance by one frame.  (The Rust guard
`idx + channels * 2 <= input.len()` is paired here with `0 < channels`; the
call site guarantees `channels ≥ 2`, and for `channels = 0` the Rust loop
would not terminate.) -/
def s16DownmixFrames (channels : ℕ) (l : List ℕ) : List ℤ :=
  if h : 2 * channels ≤ l.length ∧ 0 < channels then
    rclampInt (Int.tdiv (parseS16 (l.take (2 * channels))).sum channels) (-32768) 32767
      :: s16DownmixFrames channels (l.drop (2 * channels))
  else []
termination_by l.length
decreasing_by simp only [List.length_drop]; omega

/-- The multichannel F32LE downmix loop: sum the frame's floats, divide by the
channel count, clamp to `[-1, 1]`, scale to `i16`.  A NaN anywhere in the
frame propagates through the sum and the clamp, and the final `as i16`
maps it to 0. -/
def f32DownmixFrames (channels : ℕ) (l : List ℕ) : List ℤ :=
  if h : 4 * channels ≤ l.length ∧ 0 < channels then
    (let frame := chunksExact 4 (l.take (4 * channels))
     let words := frame.map (fun c => leWord32 (c.getD 0 0) (c.getD 1 0) (c.getD 2 0) (c.getD 3 0))
     if words.any f32IsNan then 0
     else ratTrunc (rclamp ((words.map f32Val).sum / channels) (-1) 1 * 32767))
      :: f32DownmixFrames channels (l.drop (4 * channels))
  else []
termination_by l.length
decreasing_by simp only [List.length_drop]; omega

/-- The multichannel S32LE downmix loop: sum in `i64`, truncating divide by
the channel count, arithmetic right shift by 16, narrow to `i16`. -/
def s32DownmixFrames (channels : ℕ) (l : List ℕ) : List ℤ :=
  if h : 4 * channels ≤ l.length ∧ 0 < channels then
    Int.fdiv (Int.tdiv (parseS32 (l.take (4 * channels))).sum channels) 65536
      :: s32DownmixFrames channels (l.drop (4 * channels))
  else []
termination_by l.length
decreasing_by simp only [List.length_drop]; omega

/-- Function `to_s16le_mono(input, format, channels)` — convert a raw packet to S16LE
mono bytes.  Formats without a dedicated arm (`"S8"`, `"U8"`, unknown) fall
through to `_ => input.to_vec()`. -/
def to_s16le_mono (input : List ℕ) (format : String) (channels : ℕ) : List ℕ :=
  match format with
  | "S16LE" =>
      if channels ≤ 1 then input
      else s16ListToBytes (s16DownmixFrames channels input)
  | "F32LE" =>
      s16ListToBytes (if channels ≤ 1 then f32MonoS16 input else f32DownmixFrames channels input)
  | "S32LE" =>
      s16ListToBytes (if channels ≤ 1 then s32MonoS16 input else s32DownmixFrames channels input)
  | _ => input

/-- The end-to-end decode of one packet: `to_s16le_mono` in the sink followed
by the S16LE-pair normalization performed inside the playback callbacks. -/
def decodePacket (bytes : List ℕ) (format : String) (channels : ℕ) : List ℚ :=
  decodeBytesToF32 (to_s16le_mono bytes format channels)

/-! ### The `resample` closure (common-audio-playback/src/lib.rs) -/

/-- Rounding `f32::round` for the nonnegative values produced by the length
computation (round half away from zero), then `as usize`. -/
def rustRoundNat (q : ℚ) : ℕ := (⌊q + 1 / 2⌋).toNat

/-- One loop iteration of `resample`: read `s0`/`s1` around `pos` and
linearly interpolate.  `src.last().unwrap()` is total here because the loop
only runs on non-empty `src`. -/
def sampleAt (src : List ℚ) (pos : ℚ) : ℚ :=
  let i := (⌊pos⌋).toNat
  let frac := pos - (i : ℚ)
  let s0 := src.getD i (src.getLastD 0)
  let s1 := src.getD (i + 1) s0
  s0 + (s1 - s0) * frac

/-- The `for _ in 0..out_len` loop of `resample`, accumulating `pos` by the
step `1.0 / ratio` each iteration. -/
def resampleLoop (src : List ℚ) (step : ℚ) : ℚ → ℕ → List ℚ
  | _, 0 => []
  | pos, k + 1 => sampleAt src pos :: resampleLoop src step (pos + step) k

/-- The `resample` closure: identity when the rates agree, empty on empty
input, otherwise `round(len * Rd / Rs)` linearly interpolated samples.  The
closure writes into a destination vector that is empty at every call site, so
it is modelled as returning the pushed samples. -/
def resample (src : List ℚ) (rs rd : ℕ) : List ℚ :=
  if rs = rd then src
  else if src = [] then []
  else
    let outLen := rustRoundNat ((src.length : ℚ) * ((rd : ℚ) / (rs : ℚ)))
    resampleLoop src ((rs : ℚ) / (rd : ℚ)) 0 outLen

/-! ### Queues, the ring buffer, and the output callbacks -/

/-- Loop `while l.len() > cap { l.pop_front(); }` — the trim loop used by the
ring-buffer capacity bound and by every packet-queue enqueue site. -/
def trimFront (l : List α) (cap : ℕ) : List α :=
  if _h : cap < l.length then trimFront l.tail cap else l
termination_by l.length
decreasing_by simp only [List.length_tail]; omega

/-- One packet-queue enqueue: `q.push_back(x)` followed by the trim loop
(`while q.len() > cap { q.pop_front(); }`). -/
def enqueue (cap : ℕ) (q : List α) (x : α) : List α := trimFront (q ++ [x]) cap

/-- The refill loop of both output callbacks: while the ring buffer holds
fewer than `framesNeeded` mono samples and the packet queue is non-empty,
pop one packet, decode it, resample it, and extend the ring buffer. -/
def refill (framesNeeded inRate devRate : ℕ) :
    List (List ℕ) → List ℚ → List (List ℕ) × List ℚ
  | [], b => ([], b)
  | p :: q, b =>
    if b.length < framesNeeded then
      refill framesNeeded inRate devRate q (b ++ resample (decodeBytesToF32 p) inRate devRate)
    else (p :: q, b)

/-- The inner `for ch in 0..output_channels` loop: write `v` into the `k`
slots starting at `base`. -/
def writeChans (d : List α) (base : ℕ) (v : α) : ℕ → List α
  | 0 => d
  | k + 1 => (writeChans d base v k).set (base + k) v

/-- The outer `for frame_index in 0..frames_to_write` loop: write frame `i`'s
mono sample (`buffer.get(i).copied().unwrap_or(0.0)`, converted by `conv`)
into all `channels` slots of frame `i`. -/
def writeFrames (d : List α) (b : List ℚ) (conv : ℚ → α) (channels : ℕ) : ℕ → List α
  | 0 => d
  | n + 1 => writeChans (writeFrames d b conv channels n) (n * channels) (conv (b.getD n 0)) channels

/-- The output callback built by `build_f32`: refill, then either the silence
branch or the emit-consume-trim branch.  Returns the written output slots and
the final `(queue, ring buffer)` state. -/
def runCallbackF32 (devRate inRate channels : ℕ) (data : List ℚ)
    (queue : List (List ℕ)) (buffer : List ℚ) :
    List ℚ × List (List ℕ) × List ℚ :=
  let framesNeeded := data.length / channels
  let minPrefill := devRate / 10
  let r := refill framesNeeded inRate devRate queue buffer
  if r.2.length < framesNeeded ∧ r.2.length < minPrefill then
    (data.map (fun _ => (0 : ℚ)), r.1, r.2)
  else
    let out := writeFrames data r.2 (fun x => x) channels framesNeeded
    let b2 := r.2.drop (min framesNeeded r.2.length)
    (out, r.1, trimFront b2 (devRate * 5))

/-- The output callback built by `build_i16`: identical shape, but each
emitted slot is `(v.clamp(-1.0, 1.0) * 32767.0) as i16` and silence is the
integer 0. -/
def runCallbackI16 (devRate inRate channels : ℕ) (data : List ℤ)
    (queue : List (List ℕ)) (buffer : List ℚ) :
    List ℤ × List (List ℕ) × List ℚ :=
  let framesNeeded := data.length / channels
  let minPrefill := devRate / 10
  let r := refill framesNeeded inRate devRate queue buffer
  if r.2.length < framesNeeded ∧ r.2.length < minPrefill then
    (data.map (fun _ => (0 : ℤ)), r.1, r.2)
  else
    let out := writeFrames data r.2 i16OfSample channels framesNeeded
    let b2 := r.2.drop (min framesNeeded r.2.length)
    (out, r.1, trimFront b2 (devRate * 5))

/-! ### Helper lemmas -/

theorem trimFront_eq_drop (l : List α) (cap : ℕ) :
    trimFront l cap = l.drop (l.length - cap) := by
  induction l, cap using trimFront.induct with
  | case1 l cap h ih =>
    rw [trimFront, dif_pos h, ih, ← List.drop_one, List.drop_drop]
    congr 1
    simp only [List.length_drop]
    omega
  | case2 l cap h =>
    rw [trimFront, dif_neg h]
    have : l.length - cap = 0 := by omega
    rw [this, List.drop_zero]

theorem trimFront_length (l : List α) (cap : ℕ) :
    (trimFront l cap).length = min l.length cap := by
  rw [trimFront_eq_drop, List.length_drop]
  omega

theorem length_parseS16 (l : List ℕ) : (parseS16 l).length = l.length / 2 := by
  induction l using parseS16.induct with
  | case1 b0 b1 rest ih => simp only [parseS16, List.length_cons, ih]; omega
  | case2 l h => cases l with
    | nil => simp [parseS16]
    | cons a t => cases t with
      | nil => simp [parseS16]
      | cons b t' => exact absurd rfl (h a b t')

theorem toSigned16_lt (n : ℕ) (h : n < 65536) :
    -32768 ≤ toSigned16 n ∧ toSigned16 n < 32768 := by
  unfold toSigned16
  split <;> omega

theorem parseS16_cons_pair (s : ℤ) (rest : List ℕ)
    (h1 : -32768 ≤ s) (h2 : s < 32768) :
    parseS16 (i16ToLeBytes s ++ rest) = s :: parseS16 rest := by
  have hmod : (0 : ℤ) ≤ s % 65536 := Int.emod_nonneg s (by norm_num)
  have hlt : s % 65536 < 65536 := Int.emod_lt_of_pos s (by norm_num)
  have hdiv : (s % 65536).toNat / 256 < 256 := by omega
  have hmm : (s % 65536).toNat % 256 % 256 = (s % 65536).toNat % 256 :=
    Nat.mod_mod_of_dvd _ dvd_rfl
  simp only [i16ToLeBytes, List.cons_append, List.nil_append, parseS16, leWord16, u8,
    hmm, Nat.mod_eq_of_lt hdiv, Nat.mod_add_div, List.cons.injEq]
  refine ⟨?_, rfl⟩
  unfold toSigned16
  split <;> omega

theorem parseS16_s16ListToBytes (l : List ℤ)
    (h : ∀ s ∈ l, -32768 ≤ s ∧ s < 32768) :
    parseS16 (s16ListToBytes l) = l := by
  induction l with
  | nil => rfl
  | cons s t ih =>
    have hs := h s (List.mem_cons_self s t)
    simp only [s16ListToBytes, List.map_cons, List.flatten_cons]
    rw [parseS16_cons_pair s _ hs.1 hs.2]
    have ht := ih (fun x hx => h x (List.mem_cons_of_mem s hx))
    simpa [s16ListToBytes] using congrArg (s :: ·) ht

theorem length_s16ListToBytes (l : List ℤ) : (s16ListToBytes l).length = 2 * l.length := by
  induction l with
  | nil => rfl
  | cons s t ih =>
    simp only [s16ListToBytes, List.map_cons, List.flatten_cons, List.length_append,
      List.length_cons] at *
    simp [i16ToLeBytes, ih]
    omega

theorem ratTrunc_range (q : ℚ) (lo hi : ℤ) (h1 : (lo : ℚ) ≤ q) (h2 : q ≤ (hi : ℚ))
    (hlo : lo ≤ 0) (hhi : 0 ≤ hi) : lo ≤ ratTrunc q ∧ ratTrunc q ≤ hi := by
  unfold ratTrunc
  by_cases h : 0 ≤ q
  · rw [if_pos h]
    constructor
    · exact le_trans hlo (Int.le_floor.mpr (by exact_mod_cast h))
    · calc ⌊q⌋ ≤ ⌊(hi : ℚ)⌋ := Int.floor_le_floor h2
        _ = hi := Int.floor_intCast hi
  · rw [if_neg h]
    constructor
    · calc lo = ⌈(lo : ℚ)⌉ := (Int.ceil_intCast lo).symm
        _ ≤ ⌈q⌉ := Int.ceil_le_ceil h1
    · exact le_trans (Int.ceil_le.mpr (le_of_lt (lt_of_not_le h))) hhi

theorem rclamp_range (x : ℚ) : -1 ≤ rclamp x (-1) 1 ∧ rclamp x (-1) 1 ≤ 1 := by
  unfold rclamp
  exact ⟨le_min_iff.mpr ⟨le_max_right x (-1), by norm_num⟩, min_le_right _ 1⟩

theorem i16OfSample_range (x : ℚ) : -32767 ≤ i16OfSample x ∧ i16OfSample x ≤ 32767 := by
  have h := rclamp_range x
  unfold i16OfSample
  refine ratTrunc_range _ (-32767) 32767 ?_ ?_ (by norm_num) (by norm_num)
  · push_cast
    nlinarith [h.1]
  · push_cast
    nlinarith [h.2]

theorem rclampInt_range (x lo hi : ℤ) (h : lo ≤ hi) :
    lo ≤ rclampInt x lo hi ∧ rclampInt x lo hi ≤ hi := by
  unfold rclampInt
  exact ⟨le_min_iff.mpr ⟨le_max_right x lo, h⟩, min_le_right _ hi⟩

theorem f32ChunkToS16_range (b0 b1 b2 b3 : ℕ) :
    -32768 ≤ f32ChunkToS16 b0 b1 b2 b3 ∧ f32ChunkToS16 b0 b1 b2 b3 < 32768 := by
  simp only [f32ChunkToS16]
  by_cases hn : f32IsNan (leWord32 b0 b1 b2 b3)
  · simp only [hn, if_true]
    omega
  · simp only [hn, if_false]
    have h := i16OfSample_range (f32Val (leWord32 b0 b1 b2 b3))
    omega

theorem toSigned32_range (n : ℕ) (h : n < 4294967296) :
    -2147483648 ≤ toSigned32 n ∧ toSigned32 n < 2147483648 := by
  unfold toSigned32
  split <;> omega

theorem leWord32_lt (b0 b1 b2 b3 : ℕ) : leWord32 b0 b1 b2 b3 < 4294967296 := by
  unfold leWord32 u8
  omega

theorem parseS32_mem_range (l : List ℕ) (s : ℤ) (hs : s ∈ parseS32 l) :
    -2147483648 ≤ s ∧ s < 2147483648 := by
  induction l using parseS32.induct with
  | case1 b0 b1 b2 b3 rest ih =>
    rw [parseS32] at hs
    rcases List.mem_cons.mp hs with h | h
    · subst h
      exact toSigned32_range _ (leWord32_lt b0 b1 b2 b3)
    · exact ih h
  | case2 l h =>
    rw [parseS32] at hs
    · simp at hs
    · intro b0 b1 b2 b3 rest heq
      exact h b0 b1 b2 b3 rest heq

theorem fdiv_65536_range (s : ℤ) (h1 : -2147483648 ≤ s) (h2 : s < 2147483648) :
    -32768 ≤ Int.fdiv s 65536 ∧ Int.fdiv s 65536 < 32768 := by
  rw [Int.fdiv_eq_ediv _ (by norm_num)]
  omega

theorem length_chunksExact (k : ℕ) (l : List α) :
    (chunksExact k l).length = l.length / k := by
  rw [chunksExact]
  by_cases h : k ≤ l.length ∧ 0 < k
  · rw [dif_pos h, List.length_cons, length_chunksExact k (l.drop k), List.length_drop]
    conv_rhs => rw [Nat.div_eq]
    rw [if_pos ⟨h.2, h.1⟩]
  · rw [dif_neg h]
    rcases Nat.eq_zero_or_pos k with hk | hk
    · simp [hk]
    · have : l.length < k := by omega
      rw [List.length_nil, Nat.div_eq_of_lt this]
termination_by l.length
decreasing_by simp only [List.length_drop]; omega

theorem s16DownmixFrames_eq_chunks (c : ℕ) (l : List ℕ) :
    s16DownmixFrames c l = (chunksExact (2 * c) l).map
      (fun fr => rclampInt (Int.tdiv (parseS16 fr).sum c) (-32768) 32767) := by
  rw [s16DownmixFrames, chunksExact]
  by_cases h : 2 * c ≤ l.length ∧ 0 < c
  · rw [dif_pos h, dif_pos ⟨h.1, by omega⟩, List.map_cons,
      s16DownmixFrames_eq_chunks c (l.drop (2 * c))]
  · rw [dif_neg h, dif_neg (by intro hc; exact h ⟨hc.1, by omega⟩), List.map_nil]
termination_by l.length
decreasing_by simp only [List.length_drop]; omega

theorem length_s16DownmixFrames (c : ℕ) (l : List ℕ) :
    (s16DownmixFrames c l).length = l.length / (2 * c) := by
  rw [s16DownmixFrames_eq_chunks, List.length_map, length_chunksExact]

theorem length_f32DownmixFrames (c : ℕ) (l : List ℕ) :
    (f32DownmixFrames c l).length = l.length / (4 * c) := by
  rw [f32DownmixFrames]
  by_cases h : 4 * c ≤ l.length ∧ 0 < c
  · rw [dif_pos h, List.length_cons, length_f32DownmixFrames c (l.drop (4 * c)),
      List.length_drop]
    conv_rhs => rw [Nat.div_eq]
    rw [if_pos ⟨by omega, h.1⟩]
  · rw [dif_neg h]
    rcases Nat.eq_zero_or_pos c with hk | hk
    · simp [hk]
    · have : l.length < 4 * c := by omega
      rw [List.length_nil, Nat.div_eq_of_lt this]
termination_by l.length
decreasing_by simp only [List.length_drop]; omega

theorem length_s32DownmixFrames (c : ℕ) (l : List ℕ) :
    (s32DownmixFrames c l).length = l.length / (4 * c) := by
  rw [s32DownmixFrames]
  by_cases h : 4 * c ≤ l.length ∧ 0 < c
  · rw [dif_pos h, List.length_cons, length_s32DownmixFrames c (l.drop (4 * c)),
      List.length_drop]
    conv_rhs => rw [Nat.div_eq]
    rw [if_pos ⟨by omega, h.1⟩]
  · rw [dif_neg h]
    rcases Nat.eq_zero_or_pos c with hk | hk
    · simp [hk]
    · have : l.length < 4 * c := by omega
      rw [List.length_nil, Nat.div_eq_of_lt this]
termination_by l.length
decreasing_by simp only [List.length_drop]; omega

theorem length_parseS32 (l : List ℕ) : (parseS32 l).length = l.length / 4 := by
  induction l using parseS32.induct with
  | case1 b0 b1 b2 b3 rest ih => simp only [parseS32, List.length_cons, ih]; omega
  | case2 l h =>
    rw [parseS32]
    · have : l.length < 4 := by
        by_contra hc
        push_neg at hc
        match l, hc with
        | b0 :: b1 :: b2 :: b3 :: rest, _ => exact h b0 b1 b2 b3 rest rfl
      rw [List.length_nil, Nat.div_eq_of_lt this]
    · intro b0 b1 b2 b3 rest heq
      exact h b0 b1 b2 b3 rest heq

theorem length_f32MonoS16 (l : List ℕ) : (f32MonoS16 l).length = l.length / 4 := by
  induction l using f32MonoS16.induct with
  | case1 b0 b1 b2 b3 rest ih => simp only [f32MonoS16, List.length_cons, ih]; omega
  | case2 l h =>
    rw [f32MonoS16]
    · have : l.length < 4 := by
        by_contra hc
        push_neg at hc
        match l, hc with
        | b0 :: b1 :: b2 :: b3 :: rest, _ => exact h b0 b1 b2 b3 rest rfl
      rw [List.length_nil, Nat.div_eq_of_lt this]
    · intro b0 b1 b2 b3 rest heq
      exact h b0 b1 b2 b3 rest heq

theorem length_resampleLoop (src : List ℚ) (step : ℚ) (pos : ℚ) (k : ℕ) :
    (resampleLoop src step pos k).length = k := by
  induction k generalizing pos with
  | zero => rfl
  | succ k ih => simp [resampleLoop, ih]

theorem length_writeChans (d : List α) (base : ℕ) (v : α) (k : ℕ) :
    (writeChans d base v k).length = d.length := by
  induction k with
  | zero => rfl
  | succ k ih => simp [writeChans, ih]

theorem writeChans_getElem_lt (d : List α) (base : ℕ) (v : α) (k j : ℕ) (hj : j < base) :
    (writeChans d base v k)[j]? = d[j]? := by
  induction k with
  | zero => rfl
  | succ k ih =>
    rw [writeChans, List.getElem?_set_ne (by omega)]
    exact ih

theorem writeChans_getElem_hit (d : List α) (base : ℕ) (v : α) (k ch : ℕ)
    (hch : ch < k) (hlen : base + ch < d.length) :
    (writeChans d base v k)[base + ch]? = some v := by
  induction k with
  | zero => omega
  | succ k ih =>
    rw [writeChans]
    by_cases hc : ch = k
    · subst hc
      have hl : base + ch < (writeChans d base v ch).length := by
        rw [length_writeChans]
        exact hlen
      rw [List.getElem?_set_self hl]
    · rw [List.getElem?_set_ne (by omega)]
      exact ih (by omega)

theorem length_writeFrames (d : List α) (b : List ℚ) (conv : ℚ → α) (c n : ℕ) :
    (writeFrames d b conv c n).length = d.length := by
  induction n with
  | zero => rfl
  | succ n ih => rw [writeFrames, length_writeChans, ih]

theorem writeFrames_getElem (d : List α) (b : List ℚ) (conv : ℚ → α) (c n i j : ℕ)
    (hi : i < n) (hj : j < c) (hlen : n * c ≤ d.length) :
    (writeFrames d b conv c n)[i * c + j]? = some (conv (b.getD i 0)) := by
  induction n with
  | zero => omega
  | succ n ih =>
    have hsucc : (n + 1) * c = n * c + c := Nat.succ_mul n c
    rw [writeFrames]
    by_cases hin : i = n
    · subst hin
      exact writeChans_getElem_hit _ _ _ _ _ hj
        (by rw [length_writeFrames]; omega)
    · have hlt : i * c + j < n * c := by
        have h1 : i * c + j < (i + 1) * c := by rw [Nat.succ_mul]; omega
        have h2 : (i + 1) * c ≤ n * c := Nat.mul_le_mul_right c (by omega)
        omega
      rw [writeChans_getElem_lt _ _ _ _ _ hlt]
      exact ih (by omega) (by omega)

theorem foldl_enqueue_eq_drop (cap : ℕ) (q : List α) (xs : List α) (hq : q.length ≤ cap) :
    xs.foldl (enqueue cap) q = (q ++ xs).drop ((q ++ xs).length - cap) := by
  induction xs generalizing q with
  | nil =>
    rw [List.foldl_nil, List.append_nil]
    have h0 : q.length - cap = 0 := by omega
    rw [h0, List.drop_zero]
  | cons x xs ih =>
    rw [List.foldl_cons]
    have hlen : (enqueue cap q x).length ≤ cap := by
      rw [enqueue, trimFront_length]
      omega
    rw [ih (enqueue cap q x) hlen, enqueue, trimFront_eq_drop]
    have ha : (q ++ [x]).length - cap ≤ (q ++ [x]).length := by omega
    rw [← List.drop_append_of_le_length ha, List.drop_drop]
    have hq1 : ((q ++ [x]).drop ((q ++ [x]).length - cap)).length
        = (q ++ [x]).length - ((q ++ [x]).length - cap) := List.length_drop _ _
    simp only [List.length_append, List.length_drop, List.length_cons,
      List.length_nil, List.append_assoc, List.cons_append, List.nil_append]
    congr 1
    simp only [List.length_append, List.length_cons, List.length_nil] at hq1 ⊢
    omega

theorem rustRoundNat_eq (q : ℚ) (n : ℕ) (h1 : (n : ℚ) ≤ q + 1 / 2) (h2 : q + 1 / 2 < n + 1) :
    rustRoundNat q = n := by
  unfold rustRoundNat
  have hf : ⌊q + 1 / 2⌋ = (n : ℤ) := by
    rw [Int.floor_eq_iff]
    constructor
    · exact_mod_cast h1
    · exact_mod_cast h2
  rw [hf]
  exact Int.toNat_natCast n

/-! ### Claim theorems -/

/-- C3: For every input sample sequence, when the source rate `Rs` equals the
device rate `Rd`, the resampler's output equals its input exactly (identity on
the sample sequence). -/
theorem resample_identity_when_rates_equal (src : List ℚ) (rs rd : ℕ) (h : rs = rd) :
    resample src rs rd = src := by
  rw [resample, if_pos h]

/-- Witness for C3 at a concrete input. -/
theorem resample_identity_when_rates_equal_witness :
    resample [1 / 2, -(1 / 4)] 48000 48000 = [1 / 2, -(1 / 4)] :=
  resample_identity_when_rates_equal [1 / 2, -(1 / 4)] 48000 48000 rfl

/-- C4: For every input sequence and rate pair with `Rs ≠ Rd` (and a positive
source rate), the resampler's output length equals `round(len * Rd / Rs)`;
a 960-sample input at 48000 Hz into 44100 Hz yields exactly 882 samples; an
empty input yields an empty output for any rate pair. -/
theorem resample_length_spec :
    (∀ (src : List ℚ) (rs rd : ℕ), rs ≠ rd → 0 < rs →
      (resample src rs rd).length = rustRoundNat ((src.length : ℚ) * (rd : ℚ) / (rs : ℚ)))
    ∧ (resample (List.replicate 960 0) 48000 44100).length = 882
    ∧ (∀ rs rd : ℕ, resample ([] : List ℚ) rs rd = []) := by
  have hmain : ∀ (src : List ℚ) (rs rd : ℕ), rs ≠ rd → 0 < rs →
      (resample src rs rd).length = rustRoundNat ((src.length : ℚ) * (rd : ℚ) / (rs : ℚ)) := by
    intro src rs rd hne hrs
    rw [resample, if_neg hne]
    by_cases hsrc : src = []
    · rw [if_pos hsrc, hsrc]
      have h0 : ((List.length ([] : List ℚ)) : ℚ) * (rd : ℚ) / (rs : ℚ) = 0 := by
        simp
      rw [h0, rustRoundNat_eq 0 0 (by norm_num) (by norm_num)]
      rfl
    · rw [if_neg hsrc, length_resampleLoop]
      congr 1
      ring
  refine ⟨hmain, ?_, ?_⟩
  · rw [hmain (List.replicate 960 0) 48000 44100 (by norm_num) (by norm_num),
      List.length_replicate]
    exact rustRoundNat_eq _ 882 (by norm_num) (by norm_num)
  · intro rs rd
    rw [resample]
    by_cases h : rs = rd
    · rw [if_pos h]
    · rw [if_neg h, if_pos rfl]

/-- Witness for C4 at a concrete input and rate pair. -/
theorem resample_length_spec_witness :
    (resample [(0 : ℚ)] 2 1).length
      = rustRoundNat ((([(0 : ℚ)].length : ℕ) : ℚ) * ((1 : ℕ) : ℚ) / ((2 : ℕ) : ℚ)) :=
  resample_length_spec.1 [(0 : ℚ)] 2 1 (by norm_num) (by norm_num)

/-- C6: After every sequence of enqueue operations starting from the empty
queue, the packet queue length never exceeds the configured maximum, and the
retained packets are exactly the most recently enqueued ones up to that
maximum (the oldest entries are evicted from the front). -/
theorem packet_queue_bounded_and_most_recent (α : Type) (cap : ℕ) (xs : List α) :
    (xs.foldl (enqueue cap) []).length ≤ cap
    ∧ xs.foldl (enqueue cap) [] = xs.drop (xs.length - cap) := by
  have h := foldl_enqueue_eq_drop cap [] xs (by simp)
  rw [List.nil_append] at h
  refine ⟨?_, h⟩
  rw [h, List.length_drop]
  omega

/-- C2: After every completed output-callback invocation (for both the f32 and
the i16 stream builds, from any starting state), the ring buffer holds at most
`device_rate * 5` samples; and the trim loop that restores the bound removes
exactly the oldest samples, from the front. -/
theorem ring_buffer_capacity_invariant :
    (∀ (devRate inRate channels : ℕ) (data : List ℚ) (q : List (List ℕ)) (b : List ℚ),
      (runCallbackF32 devRate inRate channels data q b).2.2.length ≤ devRate * 5)
    ∧ (∀ (devRate inRate channels : ℕ) (data : List ℤ) (q : List (List ℕ)) (b : List ℚ),
      (runCallbackI16 devRate inRate channels data q b).2.2.length ≤ devRate * 5)
    ∧ (∀ (b : List ℚ) (cap : ℕ), trimFront b cap = b.drop (b.length - cap)) := by
  refine ⟨?_, ?_, fun b cap => trimFront_eq_drop b cap⟩
  · intro devRate inRate channels data q b
    simp only [runCallbackF32]
    split
    · rename_i h
      have := h.2
      simp only []
      omega
    · simp only [trimFront_length]
      omega
  · intro devRate inRate channels data q b
    simp only [runCallbackI16]
    split
    · rename_i h
      have := h.2
      simp only []
      omega
    · simp only [trimFront_length]
      omega

/-- C1: For every callback invocation, if after the refill loop the ring
buffer holds fewer mono samples than `frames_needed` and fewer than
`min_prefill = device_rate / 10`, then the callback writes silence (0.0 on
the float path, 0 on the integer path) into every output slot and returns
with the ring buffer exactly as the refill loop left it, consuming no
buffered sample. -/
theorem callback_silence_path :
    (∀ (devRate inRate channels : ℕ) (data : List ℚ) (q : List (List ℕ)) (b : List ℚ),
      (refill (data.length / channels) inRate devRate q b).2.length < data.length / channels →
      (refill (data.length / channels) inRate devRate q b).2.length < devRate / 10 →
      runCallbackF32 devRate inRate channels data q b
        = (List.replicate data.length 0,
           (refill (data.length / channels) inRate devRate q b).1,
           (refill (data.length / channels) inRate devRate q b).2))
    ∧ (∀ (devRate inRate channels : ℕ) (data : List ℤ) (q : List (List ℕ)) (b : List ℚ),
      (refill (data.length / channels) inRate devRate q b).2.length < data.length / channels →
      (refill (data.length / channels) inRate devRate q b).2.length < devRate / 10 →
      runCallbackI16 devRate inRate channels data q b
        = (List.replicate data.length 0,
           (refill (data.length / channels) inRate devRate q b).1,
           (refill (data.length / channels) inRate devRate q b).2)) := by
  constructor
  · intro devRate inRate channels data q b h1 h2
    simp only [runCallbackF32]
    rw [if_pos ⟨h1, h2⟩, List.map_const']
  · intro devRate inRate channels data q b h1 h2
    simp only [runCallbackI16]
    rw [if_pos ⟨h1, h2⟩, List.map_const']

/-- Witness for C1: an empty queue and empty buffer trigger the silence path
on both stream builds. -/
theorem callback_silence_path_witness :
    runCallbackF32 48000 48000 1 [1, 2] [] [] = (List.replicate 2 0, [], [])
    ∧ runCallbackI16 48000 48000 1 [3, 4] [] [] = (List.replicate 2 0, [], []) := by
  constructor
  · have h := callback_silence_path.1 48000 48000 1 [1, 2] [] []
      (by simp [refill]) (by simp [refill])
    simpa [refill] using h
  · have h := callback_silence_path.2 48000 48000 1 [3, 4] [] []
      (by simp [refill]) (by simp [refill])
    simpa [refill] using h

/-- C10: Whenever the output callback takes the silence branch, it removes no
samples from the ring buffer and performs no capacity trimming: the ring
buffer at return is exactly the refill loop's result. -/
theorem silence_branch_preserves_ring_buffer :
    (∀ (devRate inRate channels : ℕ) (data : List ℚ) (q : List (List ℕ)) (b : List ℚ),
      (refill (data.length / channels) inRate devRate q b).2.length < data.length / channels →
      (refill (data.length / channels) inRate devRate q b).2.length < devRate / 10 →
      (runCallbackF32 devRate inRate channels data q b).2.2
        = (refill (data.length / channels) inRate devRate q b).2)
    ∧ (∀ (devRate inRate channels : ℕ) (data : List ℤ) (q : List (List ℕ)) (b : List ℚ),
      (refill (data.length / channels) inRate devRate q b).2.length < data.length / channels →
      (refill (data.length / channels) inRate devRate q b).2.length < devRate / 10 →
      (runCallbackI16 devRate inRate channels data q b).2.2
        = (refill (data.length / channels) inRate devRate q b).2) := by
  constructor
  · intro devRate inRate channels data q b h1 h2
    simp only [runCallbackF32]
    rw [if_pos ⟨h1, h2⟩]
  · intro devRate inRate channels data q b h1 h2
    simp only [runCallbackI16]
    rw [if_pos ⟨h1, h2⟩]

/-- Witness for C10: with an empty queue, a one-sample buffer and a larger
request, the silence branch leaves the buffer contents untouched. -/
theorem silence_branch_preserves_ring_buffer_witness :
    (runCallbackF32 20 20 1 [1, 2, 3, 4] [] [1 / 2]).2.2 = [1 / 2]
    ∧ (runCallbackI16 20 20 1 [1, 2, 3, 4] [] [1 / 2]).2.2 = [1 / 2] := by
  constructor
  · have h := silence_branch_preserves_ring_buffer.1 20 20 1 [1, 2, 3, 4] [] [1 / 2]
      (by simp [refill]) (by simp [refill])
    simpa [refill] using h
  · have h := silence_branch_preserves_ring_buffer.2 20 20 1 [1, 2, 3, 4] [] [1 / 2]
      (by simp [refill]) (by simp [refill])
    simpa [refill] using h

/-- C9: When the callback does not take the silence branch, every one of the
`output_channels` interleaved slots of frame `i` receives the same value: the
`i`-th buffered mono sample on the float path, and that sample clamped to
`[-1, 1]`, scaled by 32767 and truncated to `i16` on the integer path. -/
theorem callback_duplicates_mono_across_channels :
    (∀ (devRate inRate channels : ℕ) (data : List ℚ) (q : List (List ℕ)) (b : List ℚ)
      (i j : ℕ),
      ¬((refill (data.length / channels) inRate devRate q b).2.length < data.length / channels
        ∧ (refill (data.length / channels) inRate devRate q b).2.length < devRate / 10) →
      i < data.length / channels → j < channels →
      (runCallbackF32 devRate inRate channels data q b).1[i * channels + j]?
        = some ((refill (data.length / channels) inRate devRate q b).2.getD i 0))
    ∧ (∀ (devRate inRate channels : ℕ) (data : List ℤ) (q : List (List ℕ)) (b : List ℚ)
      (i j : ℕ),
      ¬((refill (data.length / channels) inRate devRate q b).2.length < data.length / channels
        ∧ (refill (data.length / channels) inRate devRate q b).2.length < devRate / 10) →
      i < data.length / channels → j < channels →
      (runCallbackI16 devRate inRate channels data q b).1[i * channels + j]?
        = some (i16OfSample
            ((refill (data.length / channels) inRate devRate q b).2.getD i 0))) := by
  constructor
  · intro devRate inRate channels data q b i j hns hi hj
    simp only [runCallbackF32]
    rw [if_neg hns]
    exact writeFrames_getElem data _ (fun x => x) channels (data.length / channels) i j hi hj
      (Nat.div_mul_le_self data.length channels)
  · intro devRate inRate channels data q b i j hns hi hj
    simp only [runCallbackI16]
    rw [if_neg hns]
    exact writeFrames_getElem data _ i16OfSample channels (data.length / channels) i j hi hj
      (Nat.div_mul_le_self data.length channels)

/-- Witness for C9: a prefilled one-sample buffer with two output channels;
both slots of the emitted frame carry the same mono sample. -/
theorem callback_duplicates_mono_across_channels_witness :
    (runCallbackF32 10 10 2 [5, 6] [] [1 / 2]).1[1]? = some (1 / 2)
    ∧ (runCallbackI16 10 10 2 [5, 6] [] [1 / 2]).1[1]? = some 16383 := by
  constructor
  · have h := callback_duplicates_mono_across_channels.1 10 10 2 [5, 6] [] [1 / 2] 0 1
      (by simp [refill]) (by simp [refill]) (by norm_num)
    simpa [refill] using h
  · have h := callback_duplicates_mono_across_channels.2 10 10 2 [5, 6] [] [1 / 2] 0 1
      (by simp [refill]) (by simp [refill]) (by norm_num)
    rw [h]
    norm_num [refill, i16OfSample, rclamp, ratTrunc]

theorem s16DownmixFrames_mem_range (c : ℕ) (l : List ℕ) :
    ∀ s ∈ s16DownmixFrames c l, -32768 ≤ s ∧ s < 32768 := by
  rw [s16DownmixFrames_eq_chunks]
  intro s hs
  rcases List.mem_map.mp hs with ⟨fr, _, rfl⟩
  have h := rclampInt_range (Int.tdiv (parseS16 fr).sum c) (-32768) 32767 (by norm_num)
  omega

theorem s32MonoS16_mem_range (l : List ℕ) :
    ∀ s ∈ s32MonoS16 l, -32768 ≤ s ∧ s < 32768 := by
  intro s hs
  rcases List.mem_map.mp hs with ⟨s32, hmem, rfl⟩
  have h := parseS32_mem_range l s32 hmem
  exact fdiv_65536_range s32 h.1 h.2

theorem f32MonoS16_mem_range (l : List ℕ) :
    ∀ s ∈ f32MonoS16 l, -32768 ≤ s ∧ s < 32768 := by
  induction l using f32MonoS16.induct with
  | case1 b0 b1 b2 b3 rest ih =>
    intro s hs
    rw [f32MonoS16] at hs
    rcases List.mem_cons.mp hs with h | h
    · subst h
      exact f32ChunkToS16_range b0 b1 b2 b3
    · exact ih s h
  | case2 l h =>
    intro s hs
    rw [f32MonoS16] at hs
    · simp at hs
    · intro b0 b1 b2 b3 rest heq
      exact h b0 b1 b2 b3 rest heq

theorem chunksExact_flatten_replicate (n k : ℕ) (fr : List α)
    (hn : fr.length = n) (hpos : 0 < n) :
    chunksExact n (List.replicate k fr).flatten = List.replicate k fr := by
  induction k with
  | zero =>
    rw [List.replicate_zero, List.flatten_nil, chunksExact,
      dif_neg (by simp only [List.length_nil]; omega)]
  | succ k ih =>
    rw [List.replicate_succ, List.flatten_cons, chunksExact,
      dif_pos ⟨by simp only [List.length_append]; omega, hpos⟩,
      List.take_left' hn, List.drop_left' hn, ih]

/-- C7: For every S16LE packet with channel count `N > 1`, each decoded mono
sample is the `i32` per-frame sum divided (truncating) by `N` and clamped to
the `i16` range — the integer arithmetic mean of the frame's `N` channel
samples; in particular a two-channel packet whose channels are constantly
`100` and `-100` decodes to a sequence that is constantly `0`. -/
theorem s16_downmix_is_clamped_mean :
    (∀ (input : List ℕ) (n : ℕ), 1 < n →
      parseS16 (to_s16le_mono input "S16LE" n)
        = (chunksExact (2 * n) input).map
            (fun fr => rclampInt (Int.tdiv (parseS16 fr).sum n) (-32768) 32767))
    ∧ (∀ k : ℕ,
      decodePacket ((List.replicate k [100, 0, 156, 255]).flatten) "S16LE" 2
        = List.replicate k 0) := by
  have hmain : ∀ (input : List ℕ) (n : ℕ), 1 < n →
      parseS16 (to_s16le_mono input "S16LE" n)
        = (chunksExact (2 * n) input).map
            (fun fr => rclampInt (Int.tdiv (parseS16 fr).sum n) (-32768) 32767) := by
    intro input n hn
    have hform : to_s16le_mono input "S16LE" n = s16ListToBytes (s16DownmixFrames n input) := by
      simp only [to_s16le_mono]
      rw [if_neg (by omega)]
    rw [hform, parseS16_s16ListToBytes _ (s16DownmixFrames_mem_range n input),
      s16DownmixFrames_eq_chunks]
  refine ⟨hmain, ?_⟩
  intro k
  have h2 := hmain ((List.replicate k [100, 0, 156, 255]).flatten) 2 (by norm_num)
  rw [chunksExact_flatten_replicate (2 * 2) k [100, 0, 156, 255] (by rfl) (by norm_num),
    List.map_replicate] at h2
  have hframe : rclampInt
      (Int.tdiv (parseS16 [100, 0, 156, 255]).sum ((2 : ℕ) : ℤ)) (-32768) 32767 = 0 := by
    norm_num [parseS16, toSigned16, leWord16, u8, rclampInt, Int.tdiv]
  rw [hframe] at h2
  show decodeBytesToF32 (to_s16le_mono ((List.replicate k [100, 0, 156, 255]).flatten) "S16LE" 2)
    = List.replicate k 0
  rw [decodeBytesToF32, h2]
  simp only [List.map_replicate]
  norm_num

/-- Witness for C7 on a single two-channel frame with samples 100 and -100. -/
theorem s16_downmix_is_clamped_mean_witness :
    parseS16 (to_s16le_mono [100, 0, 156, 255] "S16LE" 2)
      = (chunksExact (2 * 2) [100, 0, 156, 255]).map
          (fun fr => rclampInt (Int.tdiv (parseS16 fr).sum 2) (-32768) 32767) :=
  s16_downmix_is_clamped_mean.1 [100, 0, 156, 255] 2 (by norm_num)

/-- C5 counterexample: decoding a U8 packet does not offset-center by 128.
The two-byte packet `[128, 128]` is all midpoint-valued unsigned-8 samples, so
the claimed rule would decode it to zeros; instead the bytes pass through
unchanged and are reparsed as one signed-16 little-endian sample with value
`-32640`, which normalizes to `-255/256 ≠ 0`. -/
theorem decode_u8_midpoint_not_zero :
    decodePacket [128, 128] "U8" 1 = [-(255 / 256)] ∧ (-(255 / 256) : ℚ) ≠ 0 := by
  constructor
  · show decodeBytesToF32 (to_s16le_mono [128, 128] "U8" 1) = [-(255 / 256)]
    norm_num [decodeBytesToF32, to_s16le_mono, parseS16, toSigned16, leWord16, u8]
  · norm_num

/-- C5 (amended): per-format normalization as implemented.  Mono signed-16
divides by 32768; mono signed-32 is arithmetically right-shifted 16 bits and
divided by 32768; mono float-32 is clamped to `[-1, 1]`, scaled by 32767,
truncated to `i16` and divided by 32768 (pass-through only up to 16-bit
quantization); signed-8 and unsigned-8 have no dedicated rule — their bytes
pass through `to_s16le_mono` unchanged (no offset-centering) and are
reinterpreted downstream as signed-16 pairs. -/
theorem decode_normalization_rules :
    (∀ bytes : List ℕ, decodePacket bytes "S16LE" 1
        = (parseS16 bytes).map (fun s : ℤ => (s : ℚ) / 32768))
    ∧ (∀ bytes : List ℕ, decodePacket bytes "S32LE" 1
        = (parseS32 bytes).map (fun s : ℤ => ((Int.fdiv s 65536 : ℤ) : ℚ) / 32768))
    ∧ (∀ bytes : List ℕ, decodePacket bytes "F32LE" 1
        = (f32MonoS16 bytes).map (fun s : ℤ => (s : ℚ) / 32768))
    ∧ (∀ (bytes : List ℕ) (channels : ℕ),
        to_s16le_mono bytes "S8" channels = bytes
        ∧ to_s16le_mono bytes "U8" channels = bytes) := by
  refine ⟨?_, ?_, ?_, fun bytes channels => ⟨rfl, rfl⟩⟩
  · intro bytes
    show decodeBytesToF32 (to_s16le_mono bytes "S16LE" 1)
      = (parseS16 bytes).map (fun s : ℤ => (s : ℚ) / 32768)
    have hform : to_s16le_mono bytes "S16LE" 1 = bytes := by
      simp only [to_s16le_mono]
      rw [if_pos (le_refl 1)]
    rw [hform, decodeBytesToF32]
  · intro bytes
    show decodeBytesToF32 (to_s16le_mono bytes "S32LE" 1)
      = (parseS32 bytes).map (fun s : ℤ => ((Int.fdiv s 65536 : ℤ) : ℚ) / 32768)
    have hform : to_s16le_mono bytes "S32LE" 1 = s16ListToBytes (s32MonoS16 bytes) := by
      simp only [to_s16le_mono]
      rw [if_pos (le_refl 1)]
    rw [hform, decodeBytesToF32,
      parseS16_s16ListToBytes _ (s32MonoS16_mem_range bytes), s32MonoS16, List.map_map]
    rfl
  · intro bytes
    show decodeBytesToF32 (to_s16le_mono bytes "F32LE" 1)
      = (f32MonoS16 bytes).map (fun s : ℤ => (s : ℚ) / 32768)
    have hform : to_s16le_mono bytes "F32LE" 1 = s16ListToBytes (f32MonoS16 bytes) := by
      simp only [to_s16le_mono]
      rw [if_pos (le_refl 1)]
    rw [hform, decodeBytesToF32,
      parseS16_s16ListToBytes _ (f32MonoS16_mem_range bytes)]

theorem length_decodePacket (b : List ℕ) (fmt : String) (c : ℕ) :
    (decodePacket b fmt c).length = (to_s16le_mono b fmt c).length / 2 := by
  show (decodeBytesToF32 (to_s16le_mono b fmt c)).length = _
  rw [decodeBytesToF32, List.length_map, length_parseS16]

/-- C8 counterexample: a 3-byte unsigned-8 mono packet.  The claimed formula
`floor(byte_length / (bytes_per_sample * channel_count))` with the U8 byte
width of 1 predicts 3 mono samples, but the decoder has no U8 arm: the bytes
pass through and are reparsed as signed-16 pairs, yielding 1 sample. -/
theorem decode_u8_sample_count_mismatch :
    (decodePacket [128, 0, 0] "U8" 1).length = 1
    ∧ (decodePacket [128, 0, 0] "U8" 1).length ≠ 3 / (1 * 1) := by
  have h : (decodePacket [128, 0, 0] "U8" 1).length = 1 := by
    show (decodeBytesToF32 (to_s16le_mono [128, 0, 0] "U8" 1)).length = 1
    norm_num [decodeBytesToF32, to_s16le_mono, parseS16]
  exact ⟨h, by rw [h]; norm_num⟩

/-- C8 (amended): for the formats with a dedicated decode arm and channel
count ≥ 1, the decoder emits exactly `floor(byte_length / (bps * channels))`
mono samples (`bps` 2 for S16LE, 4 for F32LE and S32LE), discarding trailing
bytes that do not form a complete frame; for formats without an arm (S8, U8,
unknown) the bytes pass through and `floor(byte_length / 2)` samples are
emitted; empty input always yields empty output, and decoding never errors
(the decode pipeline is a total function). -/
theorem decode_sample_count_spec :
    (∀ (b : List ℕ) (c : ℕ), 1 ≤ c →
      (decodePacket b "S16LE" c).length = b.length / (2 * c)
      ∧ (decodePacket b "F32LE" c).length = b.length / (4 * c)
      ∧ (decodePacket b "S32LE" c).length = b.length / (4 * c))
    ∧ (∀ (b : List ℕ) (c : ℕ),
      (decodePacket b "S8" c).length = b.length / 2
      ∧ (decodePacket b "U8" c).length = b.length / 2)
    ∧ (∀ (fmt : String) (c : ℕ), decodePacket [] fmt c = []) := by
  refine ⟨?_, ?_, ?_⟩
  · intro b c hc
    refine ⟨?_, ?_, ?_⟩
    · rw [length_decodePacket]
      rcases Nat.lt_or_ge 1 c with h1 | h1
      · have hform : to_s16le_mono b "S16LE" c = s16ListToBytes (s16DownmixFrames c b) := by
          simp only [to_s16le_mono]
          rw [if_neg (by omega)]
        rw [hform, length_s16ListToBytes, length_s16DownmixFrames]
        omega
      · have hc1 : c = 1 := by omega
        subst hc1
        have hform : to_s16le_mono b "S16LE" 1 = b := by
          simp only [to_s16le_mono]
          rw [if_pos (le_refl 1)]
        rw [hform]
    · rw [length_decodePacket]
      rcases Nat.lt_or_ge 1 c with h1 | h1
      · have hform : to_s16le_mono b "F32LE" c = s16ListToBytes (f32DownmixFrames c b) := by
          simp only [to_s16le_mono]
          rw [if_neg (by omega)]
        rw [hform, length_s16ListToBytes, length_f32DownmixFrames]
        omega
      · have hc1 : c = 1 := by omega
        subst hc1
        have hform : to_s16le_mono b "F32LE" 1 = s16ListToBytes (f32MonoS16 b) := by
          simp only [to_s16le_mono]
          rw [if_pos (le_refl 1)]
        rw [hform, length_s16ListToBytes, length_f32MonoS16]
        omega
    · rw [length_decodePacket]
      rcases Nat.lt_or_ge 1 c with h1 | h1
      · have hform : to_s16le_mono b "S32LE" c = s16ListToBytes (s32DownmixFrames c b) := by
          simp only [to_s16le_mono]
          rw [if_neg (by omega)]
        rw [hform, length_s16ListToBytes, length_s32DownmixFrames]
        omega
      · have hc1 : c = 1 := by omega
        subst hc1
        have hform : to_s16le_mono b "S32LE" 1 = s16ListToBytes (s32MonoS16 b) := by
          simp only [to_s16le_mono]
          rw [if_pos (le_refl 1)]
        rw [hform, length_s16ListToBytes, s32MonoS16, List.length_map, length_parseS32]
        omega
  · intro b c
    constructor
    · rw [length_decodePacket]
      rfl
    · rw [length_decodePacket]
      rfl
  · intro fmt c
    show decodeBytesToF32 (to_s16le_mono [] fmt c) = []
    have hnil : to_s16le_mono [] fmt c = [] := by
      simp only [to_s16le_mono]
      split
      · split
        · rfl
        · rw [s16DownmixFrames, dif_neg (by simp only [List.length_nil]; omega)]
          rfl
      · split
        · rfl
        · rw [f32DownmixFrames, dif_neg (by simp only [List.length_nil]; omega)]
          rfl
      · split
        · rfl
        · rw [s32DownmixFrames, dif_neg (by simp only [List.length_nil]; omega)]
          rfl
      · rfl
    rw [hnil]
    rfl

/-- Witness for C8 at a concrete 4-byte packet with two channels. -/
theorem decode_sample_count_spec_witness :
    (decodePacket [1, 2, 3, 4] "S16LE" 2).length = ([1, 2, 3, 4] : List ℕ).length / (2 * 2)
    ∧ (decodePacket [1, 2, 3, 4] "F32LE" 2).length = ([1, 2, 3, 4] : List ℕ).length / (4 * 2)
    ∧ (decodePacket [1, 2, 3, 4] "S32LE" 2).length = ([1, 2, 3, 4] : List ℕ).length / (4 * 2) :=
  decode_sample_count_spec.1 [1, 2, 3, 4] 2 (by norm_num)
